import Mathlib

/-!
Verification of the conversation-processing core of a customer-support
chatbot (intent classification, entity extraction, escalation rules,
conversation memory, context budgeting, and metrics aggregation).

The definitions below are a shallow embedding of the Python sources:

* `app/chatbot/core.py`    — conversation memory updates in `process_message`
* `app/chatbot/utils.py`   — `classify_intent`, `extract_entities`, `should_escalate`
* `app/chatbot/openai_client.py` — message-payload construction and `_manage_token_count`
* `app/analytics/metrics.py`     — `_percentile`, `_calculate_consistency`, `_empty_metrics`
* `app/config/settings.py` — the default configuration values involved

Strings are modelled as Lean `String`/`List Char`; Python float arithmetic is
modelled exactly with `ℚ` (token estimates, percentiles) or `ℝ` (consistency,
which needs a square root).  Regular-expression matching is embedded by
specialised scanners for the concrete patterns appearing in the source; word
characters are modelled over ASCII (alphanumerics and underscore), matching
the behaviour of `re` on the ASCII texts the properties quantify over.
-/

/-! ## Characters, case folding and substring search -/

/-- Word character in the sense of the regex class `\w` (ASCII fragment):
letters, digits and underscore. -/
def isWordChar (c : Char) : Bool := c.isAlphanum || c = '_'

/-- Python `str.lower()` on ASCII text, as a character list. -/
def lowerChars (s : String) : List Char := s.toList.map Char.toLower

/-- Python `str.upper()` on ASCII text, as a character list. -/
def upperChars (s : String) : List Char := s.toList.map Char.toUpper

/-- Python substring containment `needle in hay` on character lists. -/
def containsSub (hay needle : List Char) : Bool :=
  match hay with
  | [] => needle.isEmpty
  | _ :: t => needle.isPrefixOf hay || containsSub t needle

/-- Maximal runs of characters satisfying `p`; the accumulator holds the
current run reversed.  Used for word tokens (`\b`-delimited runs of `\w`)
and for Python `str.split()` (runs of non-whitespace). -/
def runsAux (p : Char → Bool) : List Char → List Char → List (List Char)
  | [], acc => if acc.isEmpty then [] else [acc.reverse]
  | c :: rest, acc =>
    if p c then runsAux p rest (c :: acc)
    else if acc.isEmpty then runsAux p rest []
    else acc.reverse :: runsAux p rest []

/-- The maximal word-character runs of a text: exactly the substrings
delimited by regex word boundaries `\b`. -/
def wordRuns (l : List Char) : List (List Char) := runsAux isWordChar l []

/-- Python `len(s.split())`: number of maximal non-whitespace runs. -/
def pyWordCount (s : String) : Nat :=
  (runsAux (fun c => !c.isWhitespace) s.toList []).length

/-! ## Conversation memory (`core.py`)

A conversation entry has a role and a content string.  The source also
stores a timestamp produced by the wall clock; no verified property refers
to it, so it is omitted from the embedding. -/

structure Msg where
  role : String
  content : String
deriving DecidableEq, Repr

def userMsg (content : String) : Msg := ⟨"user", content⟩

def assistantMsg (content : String) : Msg := ⟨"assistant", content⟩

def systemMsg (content : String) : Msg := ⟨"system", content⟩

/-- Default of `settings.max_context_messages` (`settings.py` line 32). -/
def defaultMaxContextMessages : Nat := 10

/-- Embedding of the memory-management step of `process_message`
(`core.py` lines 90-93):

  if len(mem) > max_history: mem = mem[-max_history:]

A Python slice `xs[-k:]` keeps the last `k` elements when `k ≥ 1`, but
`xs[-0:]` is the whole list, so a cap of `0` never truncates. -/
def truncateTail (maxH : Nat) (l : List Msg) : List Msg :=
  if l.length > maxH then
    if maxH = 0 then l else l.drop (l.length - maxH)
  else l

/-- The conversation memory right after `process_message` has appended the
user turn and truncated (`core.py` lines 84-93).  This is the history that
is then passed to `should_escalate` (line 100) and to response generation. -/
def memAfterUserTurn (maxH : Nat) (mem : List Msg) (message : String) : List Msg :=
  truncateTail maxH (mem ++ [userMsg message])

/-- The conversation memory at the end of `process_message` (`core.py`
lines 111-115): the assistant turn is appended with no further truncation.
`reply` stands for the generated text (AI response or escalation template);
its value does not affect the memory shape. -/
def processTurnMem (maxH : Nat) (mem : List Msg) (message reply : String) : List Msg :=
  memAfterUserTurn maxH mem message ++ [assistantMsg reply]

/-- Memory of one user after `n` full `process_message` turns under the
default cap, starting from an empty conversation. -/
def repeatTurns : Nat → List Msg
  | 0 => []
  | n + 1 => processTurnMem defaultMaxContextMessages (repeatTurns n) "hi" "ok"

/-! ## Keyword/regex pattern matching (`utils.py`)

All intent and frustration patterns in the source have the shape
`\b(lit1|lit2|...)\b` where every literal begins and ends with a word
character.  For such patterns a `\b` before the match holds exactly when the
preceding character is not a word character (or the match is at the start),
and a `\b` after the match holds exactly when the following character is not
a word character (or the match is at the end).  `re.findall` scans left to
right, tries the alternatives in order at each position, and resumes after
the end of each (non-overlapping) match. -/

/-- Word boundary immediately after a match that ends in a word character:
the rest of the text is empty or starts with a non-word character. -/
def boundaryAfter : List Char → Bool
  | [] => true
  | c :: _ => !isWordChar c

/-- The first alternative (in declaration order) that matches literally at
the current position with word boundaries on both sides; `pw` says whether
the previous character is a word character. -/
def altMatchHere (alts : List (List Char)) (text : List Char) (pw : Bool) :
    Option (List Char) :=
  alts.findSome? fun a =>
    if !pw && a.isPrefixOf text && boundaryAfter (text.drop a.length) then
      some a
    else none

/-- Number of matches of `\b(alt1|...)\b` in `text`, in the manner of
`re.findall`: scan left to right, skip past each match found. -/
def countMatchesAux (alts : List (List Char)) : List Char → Bool → Nat
  | [], _ => 0
  | c :: rest, pw =>
    match altMatchHere alts (c :: rest) pw with
    | some a => 1 + countMatchesAux alts (rest.drop (a.length - 1)) true
    | none => countMatchesAux alts rest (isWordChar c)
termination_by text _ => text.length
decreasing_by
  all_goals simp only [List.length_cons, List.length_drop]
  all_goals omega

/-- Embedding of `len(re.findall(pattern, text))` for an alternation of
word-delimited literal phrases. -/
def countMatches (alts : List String) (text : List Char) : Nat :=
  countMatchesAux (alts.map String.toList) text false

/-! ## Intent classification (`utils.py` lines 12-56)

The registry below copies the `intent_patterns` dict of `classify_intent`
in declaration order; each category has a single pattern, given by its list
of alternatives.  (The `knowledge_base` argument of `classify_intent` is
unused by its body and therefore not a parameter here.) -/

def intentPatterns : List (String × List (List String)) := [
  ("greeting", [["hello", "hi", "hey", "good morning", "good afternoon", "good evening"]]),
  ("order_status", [["track", "tracking", "order", "delivery", "shipped", "shipping"]]),
  ("billing", [["bill", "charge", "payment", "invoice", "refund", "money", "cost", "price"]]),
  ("returns", [["return", "exchange", "defective", "damaged", "broken", "wrong item"]]),
  ("account", [["password", "login", "account", "profile", "settings", "username"]]),
  ("product_info", [["product", "item", "specification", "details", "features", "size"]]),
  ("complaint", [["complaint", "dissatisfied", "problem", "issue", "frustrated", "angry", "terrible"]]),
  ("compliment", [["great", "excellent", "amazing", "satisfied", "happy", "love", "perfect"]]),
  ("technical_support", [["error", "bug", "not working", "broken", "crash", "technical"]]),
  ("cancellation", [["cancel", "cancellation", "stop", "remove"]])]

/-- Score of one category: sum of `len(re.findall(p, message_lower))` over
its patterns. -/
def patternScore (pats : List (List String)) (text : List Char) : Nat :=
  (pats.map (fun alts => countMatches alts text)).sum

/-- The `intent_scores` mapping, in the insertion order of the registry
(Python dicts preserve insertion order). -/
def intentScores (message : String) : List (String × Nat) :=
  intentPatterns.map fun p => (p.1, patternScore p.2 (lowerChars message))

/-- Embedding of Python `max(iterable, key=...)` over a nonempty list of
scored keys: the current best is replaced only by a strictly greater score,
so the first of several tied maxima is kept. -/
def pyMaxByScore (x : String × Nat) (xs : List (String × Nat)) : String × Nat :=
  xs.foldl (fun b y => if b.2 < y.2 then y else b) x

/-- Embedding of `classify_intent` (`utils.py` lines 12-56): score every
category, take `max(intent_scores, key=intent_scores.get)`, and fall back to
`"general"` when the best score is `0`.  (The empty case of the match is
unreachable: the registry is a nonempty literal.) -/
def classify_intent (message : String) : String :=
  match intentScores message with
  | [] => "general"
  | x :: xs =>
    let best := pyMaxByScore x xs
    if 0 < best.2 then best.1 else "general"

/-! ## Escalation decision (`utils.py` lines 117-165) -/

/-- Word-boundary test of `\b` at position `i` of `text`: the word-character
status changes between positions `i-1` and `i` (out-of-range counts as
non-word). -/
def boundaryAt (text : List Char) (i : Nat) : Bool :=
  (if i = 0 then false else isWordChar (text.getD (i - 1) ' ')) ≠
    (match text.drop i with | [] => false | c :: _ => isWordChar c)

/-- Match of `\b(alt1|...)\b` starting at position `i`, for alternatives of
word-delimited literals; returns the end position of the first alternative
that fits. -/
def altMatchAtPos (alts : List (List Char)) (text : List Char) (i : Nat) :
    Option Nat :=
  if boundaryAt text i then
    alts.findSome? fun a =>
      if a.isPrefixOf (text.drop i) && boundaryAfter (text.drop (i + a.length)) then
        some (i + a.length)
      else none
  else none

/-- Whether `text[s:e]` is free of newlines (regex `.` does not match
`\n` without `DOTALL`). -/
def noNewlineBetween (text : List Char) (s e : Nat) : Bool :=
  ((text.drop s).take (e - s)).all (· ≠ '\n')

/-- Existence of a match of `\b(alts1)\b.*\b(alts2)\b` in `text`
(`re.search` truthiness), embedding the fourth frustration pattern
`\b(cancel|refund|money back)\b.*\b(now|immediately)\b`. -/
def seqPatternHit (alts1 alts2 : List (List Char)) (text : List Char) : Bool :=
  (List.range (text.length + 1)).any fun i =>
    match altMatchAtPos alts1 text i with
    | some e =>
      (List.range (text.length + 1)).any fun j =>
        decide (e ≤ j) && noNewlineBetween text e j &&
          (altMatchAtPos alts2 text j).isSome
    | none => false

/-- The first three `frustration_patterns` of `should_escalate`
(`utils.py` lines 139-143), each an alternation of word-delimited
literals. -/
def frustrationPatterns : List (List String) := [
  ["frustrated", "angry", "mad", "upset", "annoyed"],
  ["terrible", "awful", "horrible", "worst"],
  ["unacceptable", "ridiculous", "stupid"]]

/-- Whether any frustration pattern has a match in the lowercased message
(`utils.py` lines 139-148), including the two-part fourth pattern. -/
def frustrationHit (ml : List Char) : Bool :=
  frustrationPatterns.any (fun alts => 0 < countMatches alts ml) ||
    seqPatternHit
      (["cancel", "refund", "money back"].map String.toList)
      (["now", "immediately"].map String.toList) ml

/-- The conversation-length escalation rule (`utils.py` lines 150-152):
escalate when the history holds more than 10 messages (a literal threshold
in the source, independent of `max_context_messages`). -/
def lengthRuleHit (history : List Msg) : Bool :=
  decide (history.length > 10)

/-- The repeated-issue rule (`utils.py` lines 154-163): among the last six
turns, at least three user turns, all with the same classified intent, that
intent being escalation-prone.  Python `len(set(xs)) == 1` holds exactly
when `xs` is nonempty and each element equals the first. -/
def repeatedIntentHit (history : List Msg) : Bool :=
  if history.length ≥ 6 then
    let users := (history.drop (history.length - 6)).filter (fun m => m.role == "user")
    if users.length ≥ 3 then
      match users.map (fun m => classify_intent m.content) with
      | [] => false
      | i :: rest => rest.all (· == i) && ["complaint", "billing", "returns"].contains i
    else false
  else false

/-- The `escalation_keywords` of the default knowledge base
(`core.py` line 49). -/
def defaultEscalationKeywords : List String :=
  ["speak to human", "manager", "complaint", "frustrated", "angry"]

/-- Embedding of `should_escalate` (`utils.py` lines 117-165): the four
rules are evaluated in order with early return, which for these pure tests
is the boolean disjunction below.  `keywords` embeds
`knowledge_base.get('escalation_keywords', [])`. -/
def should_escalate (message : String) (history : List Msg)
    (keywords : List String) : Bool :=
  let ml := lowerChars message
  keywords.any (fun k => containsSub ml (lowerChars k)) ||
    frustrationHit ml ||
    lengthRuleHit history ||
    repeatedIntentHit history

/-! ## Entity extraction (`utils.py` lines 58-115)

Each category has its own scanner embedding `re.findall` for the concrete
pattern in the source.  `extract_entities` stores a category in its result
dict only when the list of matches is nonempty. -/

/-- A `dropWhile` never lengthens a list. -/
theorem dropWhile_len_le (p : Char → Bool) (l : List Char) :
    (l.dropWhile p).length ≤ l.length := by
  induction l with
  | nil => simp [List.dropWhile]
  | cons c rest ih =>
    simp only [List.dropWhile]
    split
    · exact Nat.le_succ_of_le ih
    · exact le_refl _

/-- The regex class `[A-Z0-9]` of the order-number pattern. -/
def isOrderChar (c : Char) : Bool := ('A' ≤ c && c ≤ 'Z') || c.isDigit

/-- Scanner for `re.findall(r'\b([A-Z0-9]{6,20})\b', text)`.  `pw` says
whether the previous character is a word character.  At a position opening
a run of class characters after a word boundary, the greedy repetition
takes the whole run (capped below 21); shorter attempts end in front of a
class character, hence inside a word, so no backtracking step can succeed
and the scanner moves past the run.  A run longer than 20, or one followed
by a word character outside the class (such as an underscore), produces no
match, and no position inside a run has a word boundary before it. -/
def orderScanAux : List Char → Bool → List (List Char)
  | [], _ => []
  | c :: rest, pw =>
    if isOrderChar c && !pw then
      let run := c :: rest.takeWhile isOrderChar
      let rest' := rest.dropWhile isOrderChar
      if 6 ≤ run.length && run.length ≤ 20 && boundaryAfter rest' then
        run :: orderScanAux rest' true
      else orderScanAux rest' true
    else orderScanAux rest (isWordChar c)
termination_by text _ => text.length
decreasing_by
  all_goals simp only [List.length_cons]
  · exact Nat.lt_succ_of_le (dropWhile_len_le _ _)
  · exact Nat.lt_succ_of_le (dropWhile_len_le _ _)
  · exact Nat.lt_succ_self _

/-- Order-number matches: the pattern is run against `message.upper()`
(`utils.py` lines 72-73). -/
def orderMatches (message : String) : List String :=
  (orderScanAux (upperChars message) false).map List.asString

/-- Generic left-to-right `re.findall` driver over positions: `f i` returns
the end of a match starting at `i`, if any; scanning resumes at the end of
each match (all patterns below only produce nonempty matches). -/
def spanScan (f : Nat → Option Nat) (len : Nat) : Nat → List (Nat × Nat)
  | i =>
    if h : len < i then []
    else
      match f i with
      | some e =>
        if hi : i < e then (i, e) :: spanScan f len e
        else spanScan f len (i + 1)
      | none => spanScan f len (i + 1)
termination_by i => len + 1 - i
decreasing_by all_goals omega

/-- The substring `text[s:e]` of a character list. -/
def sliceStr (text : List Char) (s e : Nat) : String :=
  ((text.drop s).take (e - s)).asString

/-- All matches of the pattern described by `f` in `text`, as strings. -/
def findallBy (f : List Char → Nat → Option Nat) (text : List Char) : List String :=
  (spanScan (f text) text.length 0).map fun p => sliceStr text p.1 p.2

/-- Run of consecutive characters of class `p` starting at position `i`. -/
def runLenAt (p : Char → Bool) (text : List Char) (i : Nat) : Nat :=
  ((text.drop i).takeWhile p).length

/-- Whether `text[i:i+k]` consists of `k` digits. -/
def digitsAt (text : List Char) (i k : Nat) : Bool :=
  decide (k ≤ (text.drop i).length) && ((text.drop i).take k).all Char.isDigit

/-- Whether position `i` holds the literal character `c`. -/
def litAt (text : List Char) (i : Nat) (c : Char) : Bool :=
  match text.drop i with
  | [] => false
  | d :: _ => d = c

/-- The regex class `[A-Za-z0-9._%+-]` (local part of the email pattern). -/
def emailLocalChar (c : Char) : Bool :=
  c.isAlphanum || c = '.' || c = '_' || c = '%' || c = '+' || c = '-'

/-- The regex class `[A-Za-z0-9.-]` (domain part of the email pattern). -/
def emailDomainChar (c : Char) : Bool := c.isAlphanum || c = '.' || c = '-'

/-- The regex class `[A-Z|a-z]` of the email pattern: letters or a literal
bar (the source writes the class with a `|` inside the brackets). -/
def emailTldChar (c : Char) : Bool := c.isAlpha || c = '|'

/-- Match attempt at position `i` for the email pattern
`\b[A-Za-z0-9._%+-]+@[A-Za-z0-9.-]+\.[A-Z|a-z]{2,}\b`: greedy local part,
a literal `@`, then the greedy domain run gives back a suffix `\.tld` with
the longest feasible domain prefix and the longest feasible top-level part
(the backtracking order of the engine). -/
def emailMatchEnd (text : List Char) (i : Nat) : Option Nat :=
  if boundaryAt text i then
    let l1 := runLenAt emailLocalChar text i
    if l1 = 0 then none
    else if litAt text (i + l1) '@' then
      let k := i + l1 + 1
      let l2 := runLenAt emailDomainChar text k
      ((List.range l2).reverse.filter fun t => 0 < t && litAt text (k + t) '.').firstM
        fun t =>
          let m := runLenAt emailTldChar text (k + t + 1)
          ((List.range (m + 1)).reverse.filter fun m' => 2 ≤ m').firstM fun m' =>
            if boundaryAt text (k + t + 1 + m') then some (k + t + 1 + m') else none
    else none
  else none

/-- Email matches (`utils.py` lines 78-79). -/
def emailMatches (message : String) : List String :=
  findallBy emailMatchEnd message.toList

/-- The separator class `[-.\s]` of the phone pattern. -/
def phoneSepChar (c : Char) : Bool := c = '-' || c = '.' || c.isWhitespace

/-- Match attempt at position `i` for the phone pattern
`(\(?\d{3}\)?[-.\s]?\d{3}[-.\s]?\d{4})`: every `?` is greedy, so the
alternatives taking the optional character are tried first. -/
def phoneMatchEnd (text : List Char) (i : Nat) : Option Nat :=
  [true, false].firstM fun op =>
    (if op then (if litAt text i '(' then some (i + 1) else none) else some i).bind
      fun p1 =>
        if digitsAt text p1 3 then
          [true, false].firstM fun cp =>
            (if cp then (if litAt text (p1 + 3) ')' then some (p1 + 4) else none)
             else some (p1 + 3)).bind fun p2 =>
              [true, false].firstM fun s1 =>
                (if s1 then
                    (if (text.getD p2 'x') |> phoneSepChar then some (p2 + 1) else none)
                 else some p2).bind fun p3 =>
                  if digitsAt text p3 3 then
                    [true, false].firstM fun s2 =>
                      (if s2 then
                          (if (text.getD (p3 + 3) 'x') |> phoneSepChar then some (p3 + 4)
                           else none)
                       else some (p3 + 3)).bind fun p4 =>
                        if digitsAt text p4 4 then some (p4 + 4) else none
                  else none
        else none

/-- Phone-number matches (`utils.py` lines 84-85). -/
def phoneMatches (message : String) : List String :=
  findallBy phoneMatchEnd message.toList

/-- Match attempt at position `i` for the money pattern
`\$\d+(?:\.\d{2})?`: a dollar sign, a greedy digit run, and optionally a
dot followed by exactly two digits. -/
def moneyMatchEnd (text : List Char) (i : Nat) : Option Nat :=
  if litAt text i '$' then
    let d := runLenAt Char.isDigit text (i + 1)
    if d = 0 then none
    else
      let e := i + 1 + d
      if litAt text e '.' && digitsAt text (e + 1) 2 then some (e + 3) else some e
  else none

/-- Money matches (`utils.py` lines 90-91). -/
def moneyMatches (message : String) : List String :=
  findallBy moneyMatchEnd message.toList

/-- Match attempt for `\b\d{1,2}/\d{1,2}/\d{4}\b` (or the same shape with a
dash): the `\d{1,2}` repetitions are greedy, trying two digits before
one. -/
def dmyMatchEnd (sep : Char) (text : List Char) (i : Nat) : Option Nat :=
  if boundaryAt text i then
    [2, 1].firstM fun a =>
      if digitsAt text i a && litAt text (i + a) sep then
        [2, 1].firstM fun b =>
          let j := i + a + 1
          if digitsAt text j b && litAt text (j + b) sep &&
              digitsAt text (j + b + 1) 4 && boundaryAt text (j + b + 5) then
            some (j + b + 5)
          else none
      else none
  else none

/-- Match attempt for `\b\d{4}-\d{2}-\d{2}\b`. -/
def isoDateMatchEnd (text : List Char) (i : Nat) : Option Nat :=
  if boundaryAt text i && digitsAt text i 4 && litAt text (i + 4) '-' &&
      digitsAt text (i + 5) 2 && litAt text (i + 7) '-' &&
      digitsAt text (i + 8) 2 && boundaryAt text (i + 10) then
    some (i + 10)
  else none

/-- Date matches: the three date patterns are matched separately and their
results concatenated in pattern order (`utils.py` lines 96-107). -/
def dateMatches (message : String) : List String :=
  findallBy (dmyMatchEnd '/') message.toList ++
    findallBy isoDateMatchEnd message.toList ++
    findallBy (dmyMatchEnd '-') message.toList

/-- The product keyword list (`utils.py` line 110). -/
def productKeywords : List String :=
  ["laptop", "phone", "tablet", "headphones", "keyboard", "mouse", "monitor", "watch"]

/-- Product matches: keywords contained in the lowercased message, in
keyword order (`utils.py` lines 110-113). -/
def productMatches (message : String) : List String :=
  productKeywords.filter fun k => containsSub (lowerChars message) k.toList

/-- One conditional insertion `if matches: entities[key] = matches` of
`extract_entities`. -/
def entityEntry (key : String) (ms : List String) :
    List (String × List String) :=
  if ms = [] then [] else [(key, ms)]

/-- Embedding of `extract_entities` (`utils.py` lines 58-115): the result
dict in insertion order, with a category present exactly when it has at
least one match. -/
def extract_entities (message : String) : List (String × List String) :=
  entityEntry "order_numbers" (orderMatches message) ++
    entityEntry "emails" (emailMatches message) ++
    entityEntry "phone_numbers" (phoneMatches message) ++
    entityEntry "amounts" (moneyMatches message) ++
    entityEntry "dates" (dateMatches message) ++
    entityEntry "products" (productMatches message)

/-! ## Context budgeting (`openai_client.py`)

Token costs are estimated as `len(content.split()) * 1.3`; the arithmetic
is carried out exactly in `ℚ` (the float results of the source agree with
these rationals on all comparisons relevant here). -/

/-- Estimated token cost of one message: `len(msg["content"].split()) * 1.3`
(`openai_client.py` line 115). -/
def tokenCost (m : Msg) : ℚ := (pyWordCount m.content : ℚ) * (13 / 10)

/-- Total estimated cost of a message list (`openai_client.py` line 115). -/
def listCost (msgs : List Msg) : ℚ := (msgs.map tokenCost).sum

/-- Default of `settings.max_tokens` (`settings.py` line 22). -/
def defaultMaxTokens : Nat := 500

/-- The input budget `4000 - self.max_tokens` (`openai_client.py` line
118). -/
def maxInputTokens (maxTokens : Nat) : ℚ := 4000 - (maxTokens : ℚ)

/-- The eviction loop of `_manage_token_count` (`openai_client.py` lines
121-125): while the running total exceeds the budget and more than two
messages remain, pop the message at index 1 (the oldest history turn) and
subtract its cost.  The role test guards the pop; on a list whose second
element had another role the Python loop would not terminate, which the
embedding renders as running out of fuel (that state is unreachable from
`generate_response`, where every non-head message is a user or assistant
turn). -/
def manageLoop (budget : ℚ) : Nat → List Msg → ℚ → List Msg
  | 0, msgs, _ => msgs
  | fuel + 1, msgs, total =>
    if total > budget ∧ msgs.length > 2 then
      match msgs with
      | s :: m :: rest =>
        if m.role == "user" || m.role == "assistant" then
          manageLoop budget fuel (s :: rest) (total - tokenCost m)
        else manageLoop budget fuel msgs total
      | _ => msgs
    else msgs

/-- Embedding of `_manage_token_count` (`openai_client.py` lines 111-127):
the running total starts at the summed cost of all messages; the list
length is enough fuel for every reachable input. -/
def manage_token_count (maxTokens : Nat) (msgs : List Msg) : List Msg :=
  manageLoop (maxInputTokens maxTokens) msgs.length msgs (listCost msgs)

/-- Embedding of `_prepare_conversation_history` (`openai_client.py` lines
98-109): keep only user and assistant turns (projected to role and
content, which is all a `Msg` carries here). -/
def prepare_conversation_history (history : List Msg) : List Msg :=
  history.filter fun m => m.role == "user" || m.role == "assistant"

/-- The message payload built by `generate_response` (`openai_client.py`
lines 46-58): the system prompt first, the filtered history, the current
user message last, then `_manage_token_count`. -/
def generate_response_messages (systemPrompt : String) (history : List Msg)
    (message : String) (maxTokens : Nat) : List Msg :=
  manage_token_count maxTokens
    (systemMsg systemPrompt :: (prepare_conversation_history history ++ [userMsg message]))

/-! ## Metrics (`metrics.py`)

Percentiles are computed over `ℚ`; Python `round(x, n)` rounds half to
even at the `n`-th decimal. -/

/-- Round half to even of a rational (banker's rounding, as Python
`round`). -/
def roundHalfEvenQ (x : ℚ) : ℤ :=
  if x - ⌊x⌋ < 1 / 2 then ⌊x⌋
  else if 1 / 2 < x - ⌊x⌋ then ⌊x⌋ + 1
  else if ⌊x⌋ % 2 = 0 then ⌊x⌋ else ⌊x⌋ + 1

/-- Python `round(x, 2)`. -/
def pyRound2 (x : ℚ) : ℚ := (roundHalfEvenQ (x * 100) : ℚ) / 100

/-- Python `int(x)` (truncation toward zero). -/
def pyInt (x : ℚ) : ℤ := if 0 ≤ x then ⌊x⌋ else -⌊-x⌋

/-- Embedding of `MetricsCollector._percentile` (`metrics.py` lines
309-326).  `data.getD _ 0` stands for Python indexing, whose indices are in
range whenever `0 ≤ p ≤ 100`. -/
def percentile (data : List ℚ) (p : ℚ) : ℚ :=
  if data = [] then 0
  else
    let index : ℚ := p / 100 * ((data.length - 1 : ℕ) : ℚ)
    let lower : ℕ := (pyInt index).toNat
    let upper : ℕ := min (lower + 1) (data.length - 1)
    if lower = upper then pyRound2 (data.getD lower 0)
    else
      let weight : ℚ := index - (lower : ℚ)
      pyRound2 (data.getD lower 0 * (1 - weight) + data.getD upper 0 * weight)

/-- The percentile computation as the specification describes it: evaluate
`index = p/100 * (n-1)`; at an integral index return that element,
otherwise interpolate between the floor and ceil indices weighted by the
fractional part — with the source's rounding of the returned value to two
decimals. -/
def percentileSpec (data : List ℚ) (p : ℚ) : ℚ :=
  let index : ℚ := p / 100 * ((data.length - 1 : ℕ) : ℚ)
  if index = (⌊index⌋ : ℚ) then pyRound2 (data.getD (⌊index⌋).toNat 0)
  else
    let frac : ℚ := index - (⌊index⌋ : ℚ)
    pyRound2 (data.getD (⌊index⌋).toNat 0 * (1 - frac) +
      data.getD (⌈index⌉).toNat 0 * frac)

/-- A recorded interaction, as far as the consistency metric reads it:
only the `response_time` field is consulted (`metrics.py` line 334). -/
structure Interaction where
  response_time : ℝ

/-- Round half to even of a real number (Python `round`). -/
noncomputable def roundHalfEvenR (x : ℝ) : ℤ :=
  if x - ⌊x⌋ < 1 / 2 then ⌊x⌋
  else if 1 / 2 < x - ⌊x⌋ then ⌊x⌋ + 1
  else if ⌊x⌋ % 2 = 0 then ⌊x⌋ else ⌊x⌋ + 1

/-- Python `round(x, 1)` on a real number. -/
noncomputable def pyRound1R (x : ℝ) : ℝ := (roundHalfEvenR (x * 10) : ℝ) / 10

/-- Embedding of `MetricsCollector._calculate_consistency` (`metrics.py`
lines 328-348): `100.0` for fewer than two samples or a zero mean,
otherwise `round(max(0, 100 - cv*100), 1)` with `cv` the coefficient of
variation built from the population standard deviation (`variance ** 0.5`
is the real square root). -/
noncomputable def calculate_consistency (interactions : List Interaction) : ℝ :=
  if interactions.length < 2 then 100
  else
    let rts := interactions.map Interaction.response_time
    let mean := rts.sum / (rts.length : ℝ)
    if mean = 0 then 100
    else
      let variance := (rts.map fun t => (t - mean) ^ 2).sum / (rts.length : ℝ)
      let std := Real.sqrt variance
      let cv := std / mean
      pyRound1R (max 0 (100 - cv * 100))

/-- The consistency formula exactly as the specification sentence states
it: `max(0, 100 - (stddev/mean * 100))`, with no rounding. -/
noncomputable def consistencySpecFormula (rts : List ℝ) : ℝ :=
  let mean := rts.sum / (rts.length : ℝ)
  let std := Real.sqrt ((rts.map fun t => (t - mean) ^ 2).sum / (rts.length : ℝ))
  max 0 (100 - std / mean * 100)

/-- The `response_consistency` value reported by `get_metrics`: when the
period holds no interactions the early return of `_empty_metrics`
(`metrics.py` lines 112-113 and 228) reports `0`; otherwise the value of
`_calculate_consistency` (line 183). -/
noncomputable def reportedResponseConsistency (interactions : List Interaction) : ℝ :=
  if interactions.isEmpty then 0 else calculate_consistency interactions

/-! ## Shared lemmas -/

/-- After the user-turn append and truncation the memory never exceeds the
cap, for any positive cap and any prior memory. -/
theorem memAfterUserTurn_length_le (maxH : Nat) (h : 1 ≤ maxH)
    (mem : List Msg) (message : String) :
    (memAfterUserTurn maxH mem message).length ≤ maxH := by
  unfold memAfterUserTurn truncateTail
  split
  · split
    · omega
    · simp only [List.length_drop]
      omega
  · omega

/-! ## Claims -/

/-- C1: the claim states that the conversation memory never exceeds
`max_context_messages` after any mutation, in particular right after the
assistant turn is appended.  This is false of the code: starting from an
empty conversation, six `process_message` turns under the default cap of
10 leave the memory with 11 entries, because `process_message` truncates
only before (not after) appending the assistant turn. -/
theorem memory_cap_counterexample :
    (repeatTurns 6).length = 11 ∧
      ¬((repeatTurns 6).length ≤ defaultMaxContextMessages) := by
  decide

/-- C1 (amended): for any positive cap, the memory holds at most
`max_context_messages` entries right after the user turn is appended and
truncated, and at most `max_context_messages + 1` entries after the
assistant turn is appended; the cap can thus be exceeded by exactly one
between the assistant append and the next turn's truncation. -/
theorem memory_cap_amended (maxH : Nat) (h : 1 ≤ maxH) (mem : List Msg)
    (message reply : String) :
    (memAfterUserTurn maxH mem message).length ≤ maxH ∧
      (processTurnMem maxH mem message reply).length ≤ maxH + 1 := by
  refine ⟨memAfterUserTurn_length_le maxH h mem message, ?_⟩
  have := memAfterUserTurn_length_le maxH h mem message
  unfold processTurnMem
  simp only [List.length_append, List.length_cons, List.length_nil]
  omega

/-- Witness for the amended C1 at the default cap and a concrete turn. -/
theorem memory_cap_amended_witness :
    1 ≤ defaultMaxContextMessages ∧
      (memAfterUserTurn defaultMaxContextMessages [] "hi").length ≤
        defaultMaxContextMessages ∧
      (processTurnMem defaultMaxContextMessages [] "hi" "ok").length ≤
        defaultMaxContextMessages + 1 :=
  ⟨by decide, (memory_cap_amended 10 (by decide) [] "hi" "ok").1,
    (memory_cap_amended 10 (by decide) [] "hi" "ok").2⟩

/-- C9: inside `process_message` the history handed to `should_escalate`
has already been truncated to the default cap of 10, so it can never hold
more than 10 messages, and the conversation-length escalation rule
(`len(history) > 10`) never fires on histories reached through
`process_message`. -/
theorem length_rule_never_fires (mem : List Msg) (message : String) :
    (memAfterUserTurn defaultMaxContextMessages mem message).length ≤ 10 ∧
      lengthRuleHit (memAfterUserTurn defaultMaxContextMessages mem message) =
        false := by
  have h := memAfterUserTurn_length_le defaultMaxContextMessages (by decide) mem message
  have h10 : (memAfterUserTurn defaultMaxContextMessages mem message).length ≤ 10 := h
  refine ⟨h10, ?_⟩
  simp only [lengthRuleHit, decide_eq_false_iff_not]
  omega

/-- Token-cost estimates are nonnegative. -/
theorem tokenCost_nonneg (m : Msg) : 0 ≤ tokenCost m := by
  unfold tokenCost
  positivity

/-- Summed token-cost estimates are nonnegative. -/
theorem listCost_nonneg (msgs : List Msg) : 0 ≤ listCost msgs := by
  unfold listCost
  refine List.sum_nonneg ?_
  intro x hx
  obtain ⟨m, _, rfl⟩ := List.mem_map.mp hx
  exact tokenCost_nonneg m

/-- Cost of a cons cell. -/
theorem listCost_cons (m : Msg) (l : List Msg) :
    listCost (m :: l) = tokenCost m + listCost l := by
  simp [listCost]

/-- Cost of an append. -/
theorem listCost_append (l₁ l₂ : List Msg) :
    listCost (l₁ ++ l₂) = listCost l₁ + listCost l₂ := by
  simp [listCost]

/-- Behaviour of the eviction loop on the payloads `generate_response`
builds: with the system message in front, history turns in the middle and
the current message last, the loop drops some prefix of the history and
either lands under budget or has dropped all of it. -/
theorem manageLoop_spec (B : ℚ) (s cur : Msg) :
    ∀ (mid : List Msg) (fuel : Nat),
      (∀ m ∈ mid, (m.role == "user" || m.role == "assistant") = true) →
      mid.length + 1 ≤ fuel →
      ∃ k,
        manageLoop B fuel (s :: (mid ++ [cur])) (listCost (s :: (mid ++ [cur]))) =
            s :: (mid.drop k ++ [cur]) ∧
          (listCost (s :: (mid.drop k ++ [cur])) ≤ B ∨ mid.drop k = []) := by
  intro mid
  induction mid with
  | nil =>
    intro fuel _ hfuel
    match fuel, hfuel with
    | fuel + 1, _ =>
      refine ⟨0, ?_, Or.inr rfl⟩
      simp [manageLoop]
  | cons m rest ih =>
    intro fuel hroles hfuel
    match fuel, hfuel with
    | fuel + 1, hf =>
      by_cases hB : listCost (s :: ((m :: rest) ++ [cur])) > B
      · have hrole : (m.role == "user" || m.role == "assistant") = true :=
          hroles m (by simp)
        have hstep :
            manageLoop B (fuel + 1) (s :: ((m :: rest) ++ [cur]))
                (listCost (s :: ((m :: rest) ++ [cur]))) =
              manageLoop B fuel (s :: (rest ++ [cur]))
                (listCost (s :: ((m :: rest) ++ [cur])) - tokenCost m) := by
          simp only [manageLoop, List.cons_append]
          rw [if_pos ⟨hB, by simp⟩, if_pos hrole]
        have htot :
            listCost (s :: ((m :: rest) ++ [cur])) - tokenCost m =
              listCost (s :: (rest ++ [cur])) := by
          simp only [List.cons_append, listCost_cons]
          ring
        obtain ⟨k, hk, hok⟩ :=
          ih fuel (fun x hx => hroles x (by simp [hx])) (by simp at hf ⊢; omega)
        refine ⟨k + 1, ?_, ?_⟩
        · rw [hstep, htot, hk, List.drop_succ_cons]
        · rw [List.drop_succ_cons]
          exact hok
      · refine ⟨0, ?_, Or.inl (not_lt.mp hB)⟩
        simp only [manageLoop, List.cons_append]
        rw [if_neg (by tauto)]
        simp

/-- C7: the payload built by `generate_response` always has the system
prompt as its first segment and the current message as its last segment,
with the middle a suffix of the filtered history in original order (the
oldest turns are the ones removed); the eviction stops once under budget
or once only the system prompt and current message remain. -/
theorem budgeter_shape (systemPrompt : String) (history : List Msg)
    (message : String) (maxTokens : Nat) :
    ∃ k,
      generate_response_messages systemPrompt history message maxTokens =
          systemMsg systemPrompt ::
            ((prepare_conversation_history history).drop k ++ [userMsg message]) ∧
        (generate_response_messages systemPrompt history message maxTokens).head? =
          some (systemMsg systemPrompt) ∧
        (generate_response_messages systemPrompt history message maxTokens).getLast? =
          some (userMsg message) ∧
        (listCost (generate_response_messages systemPrompt history message maxTokens) ≤
            maxInputTokens maxTokens ∨
          (prepare_conversation_history history).drop k = []) := by
  have hroles : ∀ m ∈ prepare_conversation_history history,
      (m.role == "user" || m.role == "assistant") = true := by
    intro m hm
    exact (List.mem_filter.mp hm).2
  obtain ⟨k, hk, hok⟩ :=
    manageLoop_spec (maxInputTokens maxTokens) (systemMsg systemPrompt)
      (userMsg message) (prepare_conversation_history history)
      (systemMsg systemPrompt ::
        (prepare_conversation_history history ++ [userMsg message])).length
      hroles (by simp)
  have hres : generate_response_messages systemPrompt history message maxTokens =
      systemMsg systemPrompt ::
        ((prepare_conversation_history history).drop k ++ [userMsg message]) := by
    unfold generate_response_messages manage_token_count
    exact hk
  refine ⟨k, hres, ?_, ?_, ?_⟩
  · rw [hres]
    rfl
  · rw [hres]
    rw [show
        systemMsg systemPrompt ::
            ((prepare_conversation_history history).drop k ++ [userMsg message]) =
          (systemMsg systemPrompt ::
              (prepare_conversation_history history).drop k) ++ [userMsg message]
      by simp]
    exact List.getLast?_concat _
  · rw [hres]
    exact hok

/-- C2: the claim states that when the system prompt and the current
message alone exceed the input budget, the budgeter surfaces a fatal
error.  This is false of the code: `_manage_token_count` simply stops once
only those two messages remain and returns them, over budget, with no
error raised — here with a budget of `1` (`max_tokens = 3999`) and a
two-word payload of cost `2.6`. -/
theorem budget_error_counterexample :
    generate_response_messages "hello" [] "hi" 3999 =
        [systemMsg "hello", userMsg "hi"] ∧
      maxInputTokens 3999 <
        listCost (generate_response_messages "hello" [] "hi" 3999) := by
  have h1 : generate_response_messages "hello" [] "hi" 3999 =
      [systemMsg "hello", userMsg "hi"] := by
    unfold generate_response_messages manage_token_count prepare_conversation_history
    simp only [List.filter_nil, List.nil_append, List.length_cons, List.length_nil]
    simp only [manageLoop]
    rw [if_neg]
    rintro ⟨-, hlen⟩
    simp at hlen
  have hw1 : pyWordCount "hello" = 1 := by decide
  have hw2 : pyWordCount "hi" = 1 := by decide
  refine ⟨h1, ?_⟩
  rw [h1]
  simp only [listCost, tokenCost, maxInputTokens, systemMsg, userMsg, List.map_cons,
    List.map_nil, List.sum_cons, List.sum_nil, hw1, hw2]
  norm_num

/-- C2 (amended): when the system prompt and current message alone exceed
the input budget, the budgeter removes every history turn and silently
returns the still-over-budget payload `[system, current]`; no error is
surfaced, and the current message is never truncated. -/
theorem budget_overflow_amended (systemPrompt : String) (history : List Msg)
    (message : String) (maxTokens : Nat)
    (h : maxInputTokens maxTokens <
      tokenCost (systemMsg systemPrompt) + tokenCost (userMsg message)) :
    generate_response_messages systemPrompt history message maxTokens =
        [systemMsg systemPrompt, userMsg message] ∧
      maxInputTokens maxTokens <
        listCost (generate_response_messages systemPrompt history message maxTokens) := by
  have hroles : ∀ m ∈ prepare_conversation_history history,
      (m.role == "user" || m.role == "assistant") = true := by
    intro m hm
    exact (List.mem_filter.mp hm).2
  obtain ⟨k, hk, hok⟩ :=
    manageLoop_spec (maxInputTokens maxTokens) (systemMsg systemPrompt)
      (userMsg message) (prepare_conversation_history history)
      (systemMsg systemPrompt ::
        (prepare_conversation_history history ++ [userMsg message])).length
      hroles (by simp)
  have hres : generate_response_messages systemPrompt history message maxTokens =
      systemMsg systemPrompt ::
        ((prepare_conversation_history history).drop k ++ [userMsg message]) := by
    unfold generate_response_messages manage_token_count
    exact hk
  have hcost : ∀ l : List Msg,
      tokenCost (systemMsg systemPrompt) + tokenCost (userMsg message) ≤
        listCost (systemMsg systemPrompt :: (l ++ [userMsg message])) := by
    intro l
    rw [listCost_cons, listCost_append, listCost_cons]
    have h0 := listCost_nonneg l
    have h1 : listCost ([] : List Msg) = 0 := by simp [listCost]
    rw [h1]
    linarith
  rcases hok with hle | hemp
  · exact absurd hle (not_le.mpr (lt_of_lt_of_le h (hcost _)))
  · rw [hemp] at hres
    simp only [List.nil_append] at hres
    refine ⟨hres, ?_⟩
    rw [hres]
    calc maxInputTokens maxTokens <
        tokenCost (systemMsg systemPrompt) + tokenCost (userMsg message) := h
      _ = listCost [systemMsg systemPrompt, userMsg message] := by
        simp [listCost]

/-- Witness for the amended C2 at a concrete over-budget configuration. -/
theorem budget_overflow_amended_witness :
    maxInputTokens 3999 <
        tokenCost (systemMsg "hello") + tokenCost (userMsg "hi") ∧
      generate_response_messages "hello" [] "hi" 3999 =
        [systemMsg "hello", userMsg "hi"] := by
  have hbig : maxInputTokens 3999 <
      tokenCost (systemMsg "hello") + tokenCost (userMsg "hi") := by
    have hw1 : pyWordCount "hello" = 1 := by decide
    have hw2 : pyWordCount "hi" = 1 := by decide
    simp only [tokenCost, maxInputTokens, systemMsg, userMsg, hw1, hw2]
    norm_num
  exact ⟨hbig, (budget_overflow_amended "hello" [] "hi" 3999 hbig).1⟩

/-- Python `max(..., key=...)` over a scored list keeps the first of the
tied maxima: its result splits the list into a strictly smaller prefix and
a no-larger suffix. -/
theorem pyMaxByScore_spec (x : String × Nat) (xs : List (String × Nat)) :
    ∃ l1 l2, x :: xs = l1 ++ pyMaxByScore x xs :: l2 ∧
      (∀ q ∈ l1, q.2 < (pyMaxByScore x xs).2) ∧
      (∀ q ∈ l2, q.2 ≤ (pyMaxByScore x xs).2) := by
  induction xs generalizing x with
  | nil => exact ⟨[], [], rfl, by simp, by simp⟩
  | cons y ys ih =>
    by_cases hxy : x.2 < y.2
    · have hfold : pyMaxByScore x (y :: ys) = pyMaxByScore y ys := by
        simp only [pyMaxByScore, List.foldl_cons]
        rw [if_pos hxy]
      obtain ⟨l1, l2, heq, hlt, hle⟩ := ih y
      have hyb : y.2 ≤ (pyMaxByScore y ys).2 := by
        cases l1 with
        | nil =>
          simp only [List.nil_append, List.cons.injEq] at heq
          exact le_of_eq (congrArg Prod.snd heq.1)
        | cons a l1' =>
          simp only [List.cons_append, List.cons.injEq] at heq
          have ha := hlt a (List.mem_cons_self a l1')
          rw [← heq.1] at ha
          omega
      rw [hfold]
      refine ⟨x :: l1, l2, ?_, ?_, hle⟩
      · rw [List.cons_append, ← heq]
      · intro q hq
        rcases List.mem_cons.mp hq with rfl | hq'
        · omega
        · exact hlt q hq'
    · have hfold : pyMaxByScore x (y :: ys) = pyMaxByScore x ys := by
        simp only [pyMaxByScore, List.foldl_cons]
        rw [if_neg hxy]
      obtain ⟨l1, l2, heq, hlt, hle⟩ := ih x
      rw [hfold]
      cases l1 with
      | nil =>
        simp only [List.nil_append, List.cons.injEq] at heq
        refine ⟨[], y :: ys, ?_, by simp, ?_⟩
        · rw [List.nil_append, ← heq.1]
        · intro q hq
          rcases List.mem_cons.mp hq with rfl | hq'
          · rw [← heq.1]
            omega
          · exact hle q (heq.2 ▸ hq')
      | cons a l1' =>
        simp only [List.cons_append, List.cons.injEq] at heq
        refine ⟨x :: y :: l1', l2, ?_, ?_, hle⟩
        · simp only [List.cons_append]
          rw [← heq.2]
        · have hx : x.2 < (pyMaxByScore x ys).2 := by
            have ha := hlt a (List.mem_cons_self a l1')
            rw [← heq.1] at ha
            exact ha
          intro q hq
          rcases List.mem_cons.mp hq with rfl | hq'
          · exact hx
          · rcases List.mem_cons.mp hq' with rfl | hq''
            · omega
            · exact hlt q (List.mem_cons_of_mem a hq'')

/-- C3: `classify_intent` splits the score registry at its first-declared
maximum: every earlier category scores strictly less and every later one
scores no more, the returned intent is that category when its score is
positive and the `general` fallback exactly when the maximum score is `0`;
the classifier is total and never fails. -/
theorem classify_intent_first_declared_max (message : String) :
    ∃ l1 p l2,
      intentScores message = l1 ++ p :: l2 ∧
        (∀ q ∈ l1, q.2 < p.2) ∧ (∀ q ∈ l2, q.2 ≤ p.2) ∧
        classify_intent message = (if 0 < p.2 then p.1 else "general") := by
  obtain ⟨x, xs, hxs⟩ : ∃ x xs, intentScores message = x :: xs := by
    cases h : intentScores message with
    | nil => simp [intentScores, intentPatterns] at h
    | cons x xs => exact ⟨x, xs, rfl⟩
  obtain ⟨l1, l2, heq, hlt, hle⟩ := pyMaxByScore_spec x xs
  refine ⟨l1, pyMaxByScore x xs, l2, by rw [hxs, heq], hlt, hle, ?_⟩
  simp [classify_intent, hxs]

/-- C6: whenever the current message contains a configured escalation
keyword as a case-insensitive substring, `should_escalate` returns `true`
regardless of the conversation history — the keyword rule is checked first
and admits no false negatives. -/
theorem escalate_keyword_rule (message : String) (history : List Msg)
    (keywords : List String)
    (h : ∃ k ∈ keywords, containsSub (lowerChars message) (lowerChars k) = true) :
    should_escalate message history keywords = true := by
  obtain ⟨k, hk, hc⟩ := h
  have hany : (keywords.any fun k => containsSub (lowerChars message) (lowerChars k)) =
      true := List.any_eq_true.mpr ⟨k, hk, hc⟩
  simp [should_escalate, hany]

/-- Witness for C6 at the specification's example: an explicit request for
a manager with an empty history and the default keyword list. -/
theorem escalate_keyword_rule_witness :
    should_escalate "I want to speak to a manager" [] defaultEscalationKeywords =
      true :=
  escalate_keyword_rule "I want to speak to a manager" [] defaultEscalationKeywords
    ⟨"manager", by decide, by decide⟩

/-- Membership in one conditional insertion of `extract_entities`. -/
theorem mem_entityEntry {p : String × List String} {k : String}
    {ms : List String} : p ∈ entityEntry k ms ↔ ms ≠ [] ∧ p = (k, ms) := by
  unfold entityEntry
  split
  · simp [*]
  · simp [*]

/-- Key presence in one conditional insertion of `extract_entities`. -/
theorem keyMem_entityEntry {key k : String} {ms : List String} :
    (∃ vs, (key, vs) ∈ entityEntry k ms) ↔ key = k ∧ ms ≠ [] := by
  constructor
  · rintro ⟨vs, hv⟩
    obtain ⟨hne, hp⟩ := mem_entityEntry.mp hv
    obtain ⟨rfl, rfl⟩ := Prod.mk.injEq .. ▸ hp
    exact ⟨rfl, hne⟩
  · rintro ⟨rfl, hne⟩
    exact ⟨ms, mem_entityEntry.mpr ⟨hne, rfl⟩⟩

/-- C8: in the result of `extract_entities` no category is ever present
with an empty list, and each of the six categories is present exactly when
its matcher produced at least one match. -/
theorem extract_entities_presence (message : String) :
    (∀ p ∈ extract_entities message, p.2 ≠ []) ∧
      ((∃ vs, ("order_numbers", vs) ∈ extract_entities message) ↔
        orderMatches message ≠ []) ∧
      ((∃ vs, ("emails", vs) ∈ extract_entities message) ↔
        emailMatches message ≠ []) ∧
      ((∃ vs, ("phone_numbers", vs) ∈ extract_entities message) ↔
        phoneMatches message ≠ []) ∧
      ((∃ vs, ("amounts", vs) ∈ extract_entities message) ↔
        moneyMatches message ≠ []) ∧
      ((∃ vs, ("dates", vs) ∈ extract_entities message) ↔
        dateMatches message ≠ []) ∧
      ((∃ vs, ("products", vs) ∈ extract_entities message) ↔
        productMatches message ≠ []) := by
  have hkey : ∀ key : String,
      (∃ vs, (key, vs) ∈ extract_entities message) ↔
        ((key = "order_numbers" ∧ orderMatches message ≠ []) ∨
          (key = "emails" ∧ emailMatches message ≠ []) ∨
          (key = "phone_numbers" ∧ phoneMatches message ≠ []) ∨
          (key = "amounts" ∧ moneyMatches message ≠ []) ∨
          (key = "dates" ∧ dateMatches message ≠ []) ∨
          (key = "products" ∧ productMatches message ≠ [])) := by
    intro key
    unfold extract_entities
    simp only [List.mem_append, exists_or, keyMem_entityEntry]
    tauto
  refine ⟨?_, ?_, ?_, ?_, ?_, ?_, ?_⟩
  · intro p hp
    unfold extract_entities at hp
    simp only [List.mem_append] at hp
    rcases hp with ((((hp | hp) | hp) | hp) | hp) | hp <;>
      · obtain ⟨hne, rfl⟩ := mem_entityEntry.mp hp
        exact hne
  all_goals rw [hkey]
  all_goals simp

/-- C5: the claim states the percentile computation returns the element at
an integral index, but the code rounds every returned value to two
decimals: on the single sample `0.125` the 50th percentile comes back as
`0.12`, not the element `0.125`. -/
theorem percentile_rounding_counterexample :
    percentile [1 / 8] 50 = 3 / 25 ∧ (3 / 25 : ℚ) ≠ 1 / 8 := by
  constructor
  · unfold percentile pyInt pyRound2 roundHalfEvenQ
    norm_num [List.getD]
  · norm_num

/-- For a non-integral rational the ceiling is the floor plus one. -/
theorem ceil_eq_floor_add_one {x : ℚ} (h : x ≠ (⌊x⌋ : ℚ)) :
    (⌈x⌉ : ℤ) = ⌊x⌋ + 1 := by
  have h1 : (⌈x⌉ : ℤ) ≤ ⌊x⌋ + 1 := by
    rw [Int.ceil_le]
    push_cast
    exact (Int.lt_floor_add_one x).le
  have h2 : ⌊x⌋ < ⌈x⌉ := by
    by_contra hc
    push_neg at hc
    have hx1 := Int.le_ceil x
    have hx2 := Int.floor_le x
    have hcast : (⌈x⌉ : ℚ) ≤ (⌊x⌋ : ℚ) := by exact_mod_cast hc
    exact h (le_antisymm (hx1.trans hcast) hx2)
  omega

/-- On nonempty data and percentile arguments in `[0, 100]`, the source's
`_percentile` agrees with the specification's description of it. -/
theorem percentile_spec_eq (data : List ℚ) (p : ℚ) (hne : data ≠ [])
    (hp0 : 0 ≤ p) (hp1 : p ≤ 100) :
    percentile data p = percentileSpec data p := by
  simp only [percentile, percentileSpec]
  rw [if_neg hne]
  set m : ℕ := data.length - 1 with hm
  set index : ℚ := p / 100 * (m : ℚ) with hidx
  have hnn : 0 ≤ index := by
    rw [hidx]
    have h2 : (0 : ℚ) ≤ (m : ℚ) := Nat.cast_nonneg m
    positivity
  have hub : index ≤ (m : ℚ) := by
    rw [hidx]
    have h1 : p / 100 ≤ 1 := by linarith
    have h2 : (0 : ℚ) ≤ (m : ℚ) := Nat.cast_nonneg m
    nlinarith
  have hfl0 : 0 ≤ ⌊index⌋ := Int.floor_nonneg.mpr hnn
  have hflm : ⌊index⌋ ≤ (m : ℤ) := by
    have h := Int.floor_mono hub
    rwa [Int.floor_natCast] at h
  have hpyint : pyInt index = ⌊index⌋ := by
    unfold pyInt
    rw [if_pos hnn]
  rw [hpyint]
  set L : ℕ := ⌊index⌋.toNat with hL
  have hlcast : ((L : ℤ)) = ⌊index⌋ := Int.toNat_of_nonneg hfl0
  have hlq : ((L : ℚ)) = (⌊index⌋ : ℚ) := by exact_mod_cast hlcast
  have hLm : L ≤ m := by
    have : (L : ℤ) ≤ (m : ℤ) := hlcast ▸ hflm
    exact_mod_cast this
  by_cases hint : index = (⌊index⌋ : ℚ)
  · rw [if_pos hint]
    by_cases hl : L = m
    · have hmin : min (L + 1) m = L := by
        rw [hl]
        exact min_eq_right (by omega)
      rw [hmin, if_pos rfl]
    · have hmin : min (L + 1) m = L + 1 := min_eq_left (by omega)
      rw [hmin, if_neg (by omega : ¬L = L + 1)]
      have hw0 : index - (L : ℚ) = 0 := by
        rw [hint, ← hlq, sub_self]
      rw [hw0]
      congr 1
      ring
  · rw [if_neg hint]
    have hlt : index < (m : ℚ) := by
      rcases lt_or_eq_of_le hub with h | h
      · exact h
      · exact absurd (by rw [h, Int.floor_natCast]; norm_cast) hint
    have hflm' : ⌊index⌋ < (m : ℤ) := by
      have h1 : (⌊index⌋ : ℚ) ≤ index := Int.floor_le index
      exact_mod_cast h1.trans_lt hlt
    have hLm' : L < m := by
      have : (L : ℤ) < (m : ℤ) := hlcast ▸ hflm'
      exact_mod_cast this
    have hmin : min (L + 1) m = L + 1 := min_eq_left (by omega)
    rw [hmin, if_neg (by omega : ¬L = L + 1)]
    have hceil : (⌈index⌉).toNat = L + 1 := by
      rw [ceil_eq_floor_add_one hint]
      omega
    rw [hceil, ← hlq]

/-- C5 (amended): on nonempty data and `p ∈ [0, 100]`, the percentile
routine computes `index = p/100 * (n-1)`, returns the element at an
integral index and otherwise the linear interpolation between the floor
and ceil indices weighted by the fractional part — in each case rounded to
two decimal places; for `[1,2,3,4,5]` the 50th, 100th and 0th percentiles
are `3`, `5` and `1`. -/
theorem percentile_amended :
    (∀ (data : List ℚ) (p : ℚ), data ≠ [] → 0 ≤ p → p ≤ 100 →
        percentile data p = percentileSpec data p) ∧
      percentile [1, 2, 3, 4, 5] 50 = 3 ∧
      percentile [1, 2, 3, 4, 5] 100 = 5 ∧
      percentile [1, 2, 3, 4, 5] 0 = 1 := by
  refine ⟨percentile_spec_eq, ?_, ?_, ?_⟩
  · norm_num [percentile, pyInt, pyRound2, roundHalfEvenQ, List.getD, Int.fract,
      show Int.toNat 2 = 2 from rfl]
    simp
  · norm_num [percentile, pyInt, pyRound2, roundHalfEvenQ, List.getD, Int.fract,
      show Int.toNat 4 = 4 from rfl]
    simp
  · norm_num [percentile, pyInt, pyRound2, roundHalfEvenQ, List.getD, Int.fract,
      show Int.toNat 0 = 0 from rfl]
    simp

/-- Witness for the amended C5 at a concrete interpolating input. -/
theorem percentile_amended_witness :
    ([1, 2] : List ℚ) ≠ [] ∧ (0 : ℚ) ≤ 25 ∧ (25 : ℚ) ≤ 100 ∧
      percentile [1, 2] 25 = percentileSpec [1, 2] 25 :=
  ⟨by simp, by norm_num, by norm_num,
    percentile_amended.1 [1, 2] 25 (by simp) (by norm_num) (by norm_num)⟩

/-- Python `round(100.0, 1)` is `100.0`. -/
theorem pyRound1R_hundred : pyRound1R 100 = 100 := by
  unfold pyRound1R roundHalfEvenR
  rw [show (100 : ℝ) * 10 = 1000 by norm_num]
  rw [show (⌊(1000 : ℝ)⌋ : ℤ) = 1000 by norm_num]
  rw [if_pos (by norm_num)]
  norm_num

/-- Fewer than two samples score a consistency of `100`. -/
theorem consistency_lt_two (l : List Interaction) (h : l.length < 2) :
    calculate_consistency l = 100 := by
  unfold calculate_consistency
  rw [if_pos h]

/-- A zero mean response time scores a consistency of `100`. -/
theorem consistency_mean_zero (l : List Interaction) (h2 : 2 ≤ l.length)
    (hm : (l.map Interaction.response_time).sum /
      ((l.map Interaction.response_time).length : ℝ) = 0) :
    calculate_consistency l = 100 := by
  simp only [calculate_consistency]
  rw [if_neg (by omega), if_pos hm]

/-- In the general branch the consistency score is exactly the
specification's formula value rounded to one decimal. -/
theorem consistency_formula (l : List Interaction) (h2 : 2 ≤ l.length)
    (hm : (l.map Interaction.response_time).sum /
      ((l.map Interaction.response_time).length : ℝ) ≠ 0) :
    calculate_consistency l =
      pyRound1R (consistencySpecFormula (l.map Interaction.response_time)) := by
  simp only [calculate_consistency, consistencySpecFormula]
  rw [if_neg (by omega), if_neg hm]

/-- Identical response times always score a consistency of `100`. -/
theorem consistency_replicate (x : ℝ) (n : ℕ) :
    calculate_consistency (List.replicate n ⟨x⟩) = 100 := by
  by_cases hn : n < 2
  · exact consistency_lt_two _ (by simpa using hn)
  · push_neg at hn
    have hn0 : (n : ℝ) ≠ 0 := Nat.cast_ne_zero.mpr (by omega)
    simp only [calculate_consistency, List.map_replicate, List.length_replicate]
    rw [if_neg (by omega)]
    rw [show (List.replicate n x).sum = (n : ℝ) * x by
      simp [List.sum_replicate, nsmul_eq_mul]]
    rw [show ((n : ℝ) * x) / (n : ℝ) = x by field_simp]
    by_cases hx : x = 0
    · rw [if_pos hx]
    · rw [if_neg hx]
      rw [show (List.replicate n ((x - x) ^ 2)).sum = 0 by simp]
      rw [zero_div, Real.sqrt_zero, zero_div, zero_mul, sub_zero]
      rw [show (0 : ℝ) ⊔ 100 = 100 from max_eq_right (by norm_num)]
      exact pyRound1R_hundred

/-- C4: the claim states the consistency score equals
`max(0, 100 - (stddev/mean * 100))` and is `100` for the empty sample set.
Both parts fail on the code: the score is rounded to one decimal (for the
samples `[1, 2]` the code yields `66.7` while the claimed formula gives
`200/3 = 66.66…`), and the metrics report for an empty period carries
`response_consistency = 0` from `_empty_metrics`, not `100`. -/
theorem consistency_counterexample :
    reportedResponseConsistency [] = 0 ∧ (0 : ℝ) ≠ 100 ∧
      calculate_consistency [⟨1⟩, ⟨2⟩] = 667 / 10 ∧
      consistencySpecFormula [1, 2] = 200 / 3 ∧
      (667 / 10 : ℝ) ≠ 200 / 3 := by
  have hfl : (⌊(2000 / 3 : ℝ)⌋ : ℤ) = 666 := by
    rw [Int.floor_eq_iff]
    constructor <;> norm_num
  refine ⟨by simp [reportedResponseConsistency], by norm_num, ?_, ?_, by norm_num⟩
  · simp only [calculate_consistency, List.length_cons, List.length_nil, List.map_cons,
      List.map_nil, List.sum_cons, List.sum_nil]
    rw [if_neg (by norm_num)]
    rw [if_neg (by norm_num)]
    rw [show ((0 + 1 + 1 : ℕ) : ℝ) = 2 by norm_num]
    rw [show (((1 : ℝ) - (1 + (2 + 0)) / 2) ^ 2 + ((2 - (1 + (2 + 0)) / 2) ^ 2 + 0)) / 2 =
        (1 / 2) ^ 2 by norm_num]
    rw [Real.sqrt_sq (by norm_num)]
    rw [show (0 : ℝ) ⊔ (100 - 1 / 2 / ((1 + (2 + 0)) / 2) * 100) = 200 / 3 by
      rw [max_eq_right (by norm_num)]; norm_num]
    unfold pyRound1R roundHalfEvenR
    rw [show (200 / 3 : ℝ) * 10 = 2000 / 3 by norm_num, hfl]
    rw [if_neg (by norm_num), if_pos (by norm_num)]
    norm_num
  · simp only [consistencySpecFormula, List.length_cons, List.length_nil, List.map_cons,
      List.map_nil, List.sum_cons, List.sum_nil]
    rw [show ((0 + 1 + 1 : ℕ) : ℝ) = 2 by norm_num]
    rw [show (((1 : ℝ) - (1 + (2 + 0)) / 2) ^ 2 + ((2 - (1 + (2 + 0)) / 2) ^ 2 + 0)) / 2 =
        (1 / 2) ^ 2 by norm_num]
    rw [Real.sqrt_sq (by norm_num)]
    rw [max_eq_right (by norm_num)]
    norm_num

/-- C4 (amended): the consistency score is `100.0` for fewer than two
samples (in particular a single sample, and the helper applied to the
empty list) and for a zero mean; with at least two samples and a nonzero
mean it equals the formula `max(0, 100 - (stddev/mean * 100))` rounded to
one decimal; all-identical samples always score `100.0`; but the metrics
report for an empty sample set carries `response_consistency = 0`. -/
theorem consistency_amended :
    (∀ l : List Interaction, l.length < 2 → calculate_consistency l = 100) ∧
      (∀ l : List Interaction, 2 ≤ l.length →
        (l.map Interaction.response_time).sum /
            ((l.map Interaction.response_time).length : ℝ) = 0 →
        calculate_consistency l = 100) ∧
      (∀ l : List Interaction, 2 ≤ l.length →
        (l.map Interaction.response_time).sum /
            ((l.map Interaction.response_time).length : ℝ) ≠ 0 →
        calculate_consistency l =
          pyRound1R (consistencySpecFormula (l.map Interaction.response_time))) ∧
      (∀ (x : ℝ) (n : ℕ), calculate_consistency (List.replicate n ⟨x⟩) = 100) ∧
      (∀ x : ℝ, calculate_consistency [⟨x⟩] = 100) ∧
      calculate_consistency [] = 100 ∧
      reportedResponseConsistency [] = 0 :=
  ⟨consistency_lt_two, consistency_mean_zero, consistency_formula,
    consistency_replicate, fun x => consistency_lt_two [⟨x⟩] (by norm_num),
    consistency_lt_two [] (by norm_num), by simp [reportedResponseConsistency]⟩

/-- Witness for the amended C4, instantiating each conditional part at a
concrete sample list. -/
theorem consistency_amended_witness :
    calculate_consistency [⟨5⟩] = 100 ∧
      calculate_consistency [⟨0⟩, ⟨0⟩] = 100 ∧
      calculate_consistency [⟨1⟩, ⟨2⟩] =
        pyRound1R (consistencySpecFormula ([⟨1⟩, ⟨2⟩].map Interaction.response_time)) :=
  ⟨consistency_amended.1 [⟨5⟩] (by norm_num),
    consistency_amended.2.1 [⟨0⟩, ⟨0⟩] (by norm_num) (by simp),
    consistency_amended.2.2.1 [⟨1⟩, ⟨2⟩] (by norm_num) (by
      simp only [List.map_cons, List.map_nil, List.sum_cons, List.sum_nil,
        List.length_cons, List.length_nil]
      norm_num)⟩

/-- Order-number characters are word characters. -/
theorem orderChar_wordChar {c : Char} (h : isOrderChar c = true) :
    isWordChar c = true := by
  simp only [isOrderChar, isWordChar, Char.isAlphanum, Char.isAlpha, Char.isUpper,
    Bool.or_eq_true, Bool.and_eq_true, decide_eq_true_eq] at h ⊢
  tauto

/-- Taking word characters first takes the order-class prefix. -/
theorem takeWhile_word_of_class (l : List Char) :
    l.takeWhile isWordChar =
      l.takeWhile isOrderChar ++ (l.dropWhile isOrderChar).takeWhile isWordChar := by
  induction l with
  | nil => simp
  | cons c rest ih =>
    by_cases hc : isOrderChar c = true
    · rw [List.takeWhile_cons_of_pos (orderChar_wordChar hc),
        List.takeWhile_cons_of_pos hc, List.dropWhile_cons_of_pos hc]
      simp [ih]
    · have h1 : (c :: rest).takeWhile isOrderChar = [] :=
        List.takeWhile_cons_of_neg (by simp [hc])
      have h2 : (c :: rest).dropWhile isOrderChar = c :: rest :=
        List.dropWhile_cons_of_neg (by simp [hc])
      rw [h1, h2, List.nil_append]

/-- Dropping word characters factors through dropping the order-class
prefix. -/
theorem dropWhile_word_of_class (l : List Char) :
    l.dropWhile isWordChar = (l.dropWhile isOrderChar).dropWhile isWordChar := by
  induction l with
  | nil => simp
  | cons c rest ih =>
    by_cases hc : isOrderChar c = true
    · rw [List.dropWhile_cons_of_pos (orderChar_wordChar hc),
        List.dropWhile_cons_of_pos hc]
      exact ih
    · have h2 : (c :: rest).dropWhile isOrderChar = c :: rest :=
        List.dropWhile_cons_of_neg (by simp [hc])
      rw [h2]

/-- Unfolding of `runsAux` with a nonempty accumulator. -/
theorem runsAux_acc (p : Char → Bool) (text : List Char) :
    ∀ acc : List Char, acc ≠ [] →
      runsAux p text acc =
        (acc.reverse ++ text.takeWhile p) :: runsAux p (text.dropWhile p) [] := by
  induction text with
  | nil =>
    intro acc hacc
    simp [runsAux, hacc]
  | cons c rest ih =>
    intro acc hacc
    by_cases hc : p c = true
    · rw [show runsAux p (c :: rest) acc = runsAux p rest (c :: acc) by
        simp [runsAux, hc]]
      rw [ih (c :: acc) (by simp)]
      rw [List.takeWhile_cons_of_pos hc, List.dropWhile_cons_of_pos hc]
      simp
    · rw [show runsAux p (c :: rest) acc = acc.reverse :: runsAux p rest [] by
        simp [runsAux, hc, hacc]]
      rw [List.takeWhile_cons_of_neg (by simp [hc]),
        List.dropWhile_cons_of_neg (by simp [hc])]
      rw [show runsAux p (c :: rest) [] = runsAux p rest [] by simp [runsAux, hc]]
      simp

/-- The word runs of a text beginning with a word character. -/
theorem wordRuns_cons_pos {c : Char} (hc : isWordChar c = true) (rest : List Char) :
    wordRuns (c :: rest) =
      (c :: rest.takeWhile isWordChar) :: wordRuns (rest.dropWhile isWordChar) := by
  unfold wordRuns
  rw [show runsAux isWordChar (c :: rest) [] = runsAux isWordChar rest [c] by
    simp [runsAux, hc]]
  rw [runsAux_acc isWordChar rest [c] (by simp)]
  simp

/-- The word runs of a text beginning with a non-word character. -/
theorem wordRuns_cons_neg {c : Char} (hc : isWordChar c = false) (rest : List Char) :
    wordRuns (c :: rest) = wordRuns rest := by
  unfold wordRuns
  simp [runsAux, hc]

/-- The tokens the order-number pattern accepts: 6 to 20 characters, all
in the class `[A-Z0-9]`. -/
def orderToken (t : List Char) : Bool :=
  6 ≤ t.length && t.length ≤ 20 && t.all isOrderChar

/-- The head of a `dropWhile` residue fails the predicate. -/
theorem dropWhile_head_not (p : Char → Bool) (l : List Char) (d : Char)
    (r : List Char) (h : l.dropWhile p = d :: r) : p d = false := by
  induction l with
  | nil => simp at h
  | cons c rest ih =>
    by_cases hp : p c = true
    · rw [List.dropWhile_cons_of_pos hp] at h
      exact ih h
    · rw [List.dropWhile_cons_of_neg (by simp [hp])] at h
      cases h
      simp at hp
      simp [hp]

/-- Scanning with a word character just before the position first skips
the rest of that word: no position inside a word run carries a word
boundary, so the scan effectively resumes after the run. -/
theorem orderScanAux_true (text : List Char) :
    orderScanAux text true = orderScanAux (text.dropWhile isWordChar) false := by
  induction text with
  | nil => simp [orderScanAux]
  | cons c rest ih =>
    have hstep : orderScanAux (c :: rest) true = orderScanAux rest (isWordChar c) := by
      simp [orderScanAux]
    by_cases hw : isWordChar c = true
    · rw [hstep, hw, ih, List.dropWhile_cons_of_pos hw]
    · have hc : isOrderChar c = false := by
        cases h : isOrderChar c
        · rfl
        · exact absurd (orderChar_wordChar h) (by simp [hw])
      have hw' : isWordChar c = false := by simpa using hw
      rw [hstep, hw', List.dropWhile_cons_of_neg (by simp [hw'])]
      rw [show orderScanAux (c :: rest) false = orderScanAux rest (isWordChar c) by
        simp [orderScanAux, hc]]
      rw [hw']


/-- The order-number scanner selects exactly the word-boundary tokens of 6
to 20 class characters (strong induction on the text length). -/
theorem orderScan_filter_bound : ∀ (n : ℕ) (text : List Char), text.length ≤ n →
    orderScanAux text false = (wordRuns text).filter orderToken := by
  intro n
  induction n with
  | zero =>
    intro text h
    have htext : text = [] := List.length_eq_zero.mp (by omega)
    subst htext
    simp [orderScanAux, wordRuns, runsAux]
  | succ n ih =>
    intro text hlen
    match text with
    | [] => simp [orderScanAux, wordRuns, runsAux]
    | c :: rest =>
      have hrest : rest.length ≤ n := by
        simp only [List.length_cons] at hlen
        omega
      have hdrop : (rest.dropWhile isWordChar).length ≤ n :=
        le_trans (dropWhile_len_le _ _) hrest
      by_cases hw : isWordChar c = true
      · by_cases hc : isOrderChar c = true
        · by_cases hb : boundaryAfter (rest.dropWhile isOrderChar) = true
          · -- the class run is a complete word run
            have htw : rest.takeWhile isWordChar = rest.takeWhile isOrderChar := by
              rw [takeWhile_word_of_class]
              cases hr : rest.dropWhile isOrderChar with
              | nil => simp
              | cons d rest'' =>
                have hd : isWordChar d = false := by
                  rw [hr] at hb
                  simpa [boundaryAfter] using hb
                rw [List.takeWhile_cons_of_neg (by simp [hd])]
                simp
            have hdw : rest.dropWhile isWordChar = rest.dropWhile isOrderChar := by
              rw [dropWhile_word_of_class]
              cases hr : rest.dropWhile isOrderChar with
              | nil => simp
              | cons d rest'' =>
                have hd : isWordChar d = false := by
                  rw [hr] at hb
                  simpa [boundaryAfter] using hb
                rw [List.dropWhile_cons_of_neg (by simp [hd])]
            have hfix : (rest.dropWhile isOrderChar).dropWhile isWordChar =
                rest.dropWhile isOrderChar := by
              cases hr : rest.dropWhile isOrderChar with
              | nil => simp
              | cons d rest'' =>
                have hd : isWordChar d = false := by
                  rw [hr] at hb
                  simpa [boundaryAfter] using hb
                rw [List.dropWhile_cons_of_neg (by simp [hd])]
            have hwr : wordRuns (c :: rest) =
                (c :: rest.takeWhile isOrderChar) ::
                  wordRuns (rest.dropWhile isOrderChar) := by
              rw [wordRuns_cons_pos hw, htw, hdw]
            have hall : (c :: rest.takeWhile isOrderChar).all isOrderChar = true := by
              rw [List.all_eq_true]
              intro x hx
              rcases List.mem_cons.mp hx with rfl | hx'
              · exact hc
              · exact List.mem_takeWhile_imp hx'
            have hcont : orderScanAux (rest.dropWhile isOrderChar) true =
                (wordRuns (rest.dropWhile isOrderChar)).filter orderToken := by
              rw [orderScanAux_true, hfix, ← hdw]
              exact ih _ hdrop
            by_cases h6 : 5 ≤ (rest.takeWhile isOrderChar).length
            · by_cases h20 : (rest.takeWhile isOrderChar).length ≤ 19
              · have hscan : orderScanAux (c :: rest) false =
                    (c :: rest.takeWhile isOrderChar) ::
                      orderScanAux (rest.dropWhile isOrderChar) true := by
                  simp [orderScanAux, hc, hb, h6, h20]
                have htok : orderToken (c :: rest.takeWhile isOrderChar) = true := by
                  simp [orderToken, h6, h20, hall]
                rw [hscan, hcont, hwr, List.filter_cons_of_pos (by simp [htok])]
              · have hscan : orderScanAux (c :: rest) false =
                    orderScanAux (rest.dropWhile isOrderChar) true := by
                  simp [orderScanAux, hc, h20]
                have htok : orderToken (c :: rest.takeWhile isOrderChar) = false := by
                  simp [orderToken, h20]
                rw [hscan, hcont, hwr, List.filter_cons_of_neg (by simp [htok])]
            · have hscan : orderScanAux (c :: rest) false =
                  orderScanAux (rest.dropWhile isOrderChar) true := by
                simp [orderScanAux, hc, h6]
              have htok : orderToken (c :: rest.takeWhile isOrderChar) = false := by
                simp [orderToken, h6]
              rw [hscan, hcont, hwr, List.filter_cons_of_neg (by simp [htok])]
          · -- the class run is followed by a word character outside the class
            obtain ⟨d, rest'', hr⟩ : ∃ d rest'',
                rest.dropWhile isOrderChar = d :: rest'' := by
              cases hr : rest.dropWhile isOrderChar with
              | nil => exact absurd (by rw [hr]; rfl) hb
              | cons d r => exact ⟨d, r, rfl⟩
            have hd : isWordChar d = true := by
              rw [hr] at hb
              simpa [boundaryAfter] using hb
            have hdnc : isOrderChar d = false := dropWhile_head_not _ _ _ _ hr
            have hbf : boundaryAfter (rest.dropWhile isOrderChar) = false := by
              simpa using hb
            have hscan : orderScanAux (c :: rest) false =
                orderScanAux (rest.dropWhile isOrderChar) true := by
              simp [orderScanAux, hc, hbf]
            have hdmem : d ∈ rest.takeWhile isWordChar := by
              rw [takeWhile_word_of_class, hr, List.takeWhile_cons_of_pos hd]
              simp
            have hallf : (c :: rest.takeWhile isWordChar).all isOrderChar = false := by
              rw [Bool.eq_false_iff]
              rw [Ne, List.all_eq_true]
              intro hforall
              have hcontr := hforall d (List.mem_cons_of_mem c hdmem)
              rw [hdnc] at hcontr
              exact absurd hcontr (by simp)
            have htok : orderToken (c :: rest.takeWhile isWordChar) = false := by
              simp [orderToken, hallf]
            rw [hscan, orderScanAux_true, ← dropWhile_word_of_class, ih _ hdrop,
              wordRuns_cons_pos hw, List.filter_cons_of_neg (by simp [htok])]
        · -- a word character outside the class: no token can start here
          have hcf : isOrderChar c = false := by simpa using hc
          have hscan : orderScanAux (c :: rest) false =
              orderScanAux rest (isWordChar c) := by
            simp [orderScanAux, hcf]
          have hallf : (c :: rest.takeWhile isWordChar).all isOrderChar = false := by
            rw [Bool.eq_false_iff]
            rw [Ne, List.all_eq_true]
            intro hforall
            have hcontr := hforall c (List.mem_cons_self c _)
            rw [hcf] at hcontr
            exact absurd hcontr (by simp)
          have htok : orderToken (c :: rest.takeWhile isWordChar) = false := by
            simp [orderToken, hallf]
          rw [hscan, hw, orderScanAux_true, ih _ hdrop, wordRuns_cons_pos hw,
            List.filter_cons_of_neg (by simp [htok])]
      · -- a non-word character: both sides skip it
        have hwf : isWordChar c = false := by simpa using hw
        have hcf : isOrderChar c = false := by
          cases h : isOrderChar c
          · rfl
          · exact absurd (orderChar_wordChar h) (by simp [hwf])
        have hscan : orderScanAux (c :: rest) false =
            orderScanAux rest (isWordChar c) := by
          simp [orderScanAux, hcf]
        rw [hscan, hwf, wordRuns_cons_neg hwf]
        exact ih rest hrest

/-- C10: the order-number matcher runs over the uppercased copy of the
message, so its result is exactly the list of word-boundary tokens of the
uppercased text consisting of 6 to 20 characters of `[A-Z0-9]` — which
includes ordinary lowercase words such as `please`, returned in uppercased
form even though that form never occurs in the original message. -/
theorem order_numbers_token_characterization :
    (∀ message : String,
        orderMatches message =
          ((wordRuns (upperChars message)).filter orderToken).map List.asString) ∧
      orderMatches "can you please help" = ["PLEASE"] ∧
      containsSub "can you please help".toList "PLEASE".toList = false := by
  have hmain : ∀ message : String,
      orderMatches message =
        ((wordRuns (upperChars message)).filter orderToken).map List.asString := by
    intro message
    unfold orderMatches
    rw [orderScan_filter_bound (upperChars message).length _ le_rfl]
  refine ⟨hmain, ?_, by decide⟩
  rw [hmain]
  decide
